import Mathlib

/-!
Shallow embedding of the reference-aware LRU cache from `src/src/lib.rs`
(`ps-rclru`).

Keys and values are `Rc` handles in the Rust source; here each distinct
allocation is modelled by a `Nat` identifier.  The ambient `Rc::strong_count`
of a value allocation is the number of copies held inside the cache (usage
records in the list, plus index-map entries, plus the local binding of a
record just popped during `gc`) plus the number of external owners, given by
an environment function `extV : Nat → Nat`.  Key handles likewise have an
external-owner environment `extK : Nat → Nat`; the source never inspects key
strong counts, and `extK` is threaded through so that this fact can be stated
and proved.
-/

/-- State of `LRU<K, V>`.  `list` is the `LinkedList<(Rc<K>, Rc<V>)>`
of usage records (head = least recently touched), `map` is the
`HashMap<Rc<K>, (Rc<V>, usize)>` modelled as an association list of
`(key, value, count)` entries, and `num_items` / `max_items` are the two
`usize` fields. -/
structure LRU where
  list : List (Nat × Nat)
  map : List (Nat × Nat × Nat)
  num_items : Nat
  max_items : Nat
deriving DecidableEq

/-- Constructor `LRU::new(max_items)`: empty list, empty map, zero items. -/
def LRU.new (max_items : Nat) : LRU :=
  { list := [], map := [], num_items := 0, max_items := max_items }

/-- Lookup `self.map.get(&key)`: first entry with the given key, as `(value, count)`. -/
def lookupMap (m : List (Nat × Nat × Nat)) (k : Nat) : Option (Nat × Nat) :=
  (m.find? (fun e => e.1 == k)).map (fun e => e.2)

/-- Update via `self.map.get_mut(&key)` followed by mutating the count in place:
rewrite the count of every entry for `k` (a `HashMap` has at most one). -/
def adjustCount (m : List (Nat × Nat × Nat)) (k : Nat) (f : Nat → Nat) :
    List (Nat × Nat × Nat) :=
  m.map (fun e => if e.1 = k then (e.1, e.2.1, f e.2.2) else e)

/-- Insertion `self.map.insert(key, (value, count))`: replace the entry if the key is
present, otherwise add a new entry. -/
def insertMap (m : List (Nat × Nat × Nat)) (k v c : Nat) :
    List (Nat × Nat × Nat) :=
  if m.any (fun e => e.1 == k) then
    m.map (fun e => if e.1 = k then (k, v, c) else e)
  else
    (k, v, c) :: m

/-- Removal `self.map.remove(&key)`: drop every entry for `k`. -/
def removeMap (m : List (Nat × Nat × Nat)) (k : Nat) :
    List (Nat × Nat × Nat) :=
  m.filter (fun e => !(e.1 == k))

/-- Number of usage records in the list for key `k`. -/
def countKey (l : List (Nat × Nat)) (k : Nat) : Nat :=
  l.countP (fun p => p.1 == k)

/-- Number of usage records in the list holding value allocation `v`. -/
def countValue (l : List (Nat × Nat)) (v : Nat) : Nat :=
  l.countP (fun p => p.2 == v)

/-- Number of index-map entries holding value allocation `v`. -/
def countValueMap (m : List (Nat × Nat × Nat)) (v : Nat) : Nat :=
  m.countP (fun e => e.2.1 == v)

/-- Value of `Rc::strong_count(&value)` at the point in `gc` where the head record
`(key, value)` has just been popped from the list: one for the popped local
binding, plus copies still in the remaining list `rest`, plus copies in the
index map, plus external owners. -/
def strongCount (value : Nat) (rest : List (Nat × Nat))
    (m : List (Nat × Nat × Nat)) (extV : Nat → Nat) : Nat :=
  1 + countValue rest value + countValueMap m value + extV value

/-- The `while` loop of `LRU::gc`, with its `iterations` counter.  Returns
`(evicted, final state, final value of iterations)`.

The loop guard is exactly the source's
`iterations < self.list.len() && self.num_items > self.max_items`, re-checked
against the current state each round.  `fuel` makes the recursion structural;
`gc` passes `self.list.len()`, which suffices because the guard forces
`iterations < list.len()`, `iterations` grows by one per round and the list
never grows during the loop, so `fuel ≥ list.len() - iterations` is
maintained and when `fuel` hits `0` the guard is already false (both return
`(none, s, iterations)`). -/
def gcLoop (extV extK : Nat → Nat) :
    Nat → LRU → Nat → Option (Nat × Nat) × LRU × Nat
  | 0, s, iterations => (none, s, iterations)
  | fuel + 1, s, iterations =>
    if iterations < s.list.length ∧ s.max_items < s.num_items then
      match s.list with
      | [] =>
        -- `self.list.pop_front()` returned `None`: `return None`
        (none, s, iterations + 1)
      | (key, value) :: rest =>
        match lookupMap s.map key with
        | some (_, count) =>
          if 1 < count then
            -- multiple references exist in list: `*count -= 1`
            gcLoop extV extK fuel
              { s with list := rest, map := adjustCount s.map key (fun c => c - 1) }
              (iterations + 1)
          else if 2 < strongCount value rest s.map extV then
            -- a reference exists outside this LRU cache: re-queue at the tail
            gcLoop extV extK fuel
              { s with list := rest ++ [(key, value)] }
              (iterations + 1)
          else
            -- evict from cache
            (some (key, value),
              { s with list := rest, map := removeMap s.map key,
                       num_items := s.num_items - 1 },
              iterations + 1)
        | none =>
          -- key absent from the map: return the popped pair as evicted
          (some (key, value), { s with list := rest }, iterations + 1)
    else
      (none, s, iterations)

/-- Eviction pass `LRU::gc`: run the eviction loop from `iterations = 0`. -/
def gc (extV extK : Nat → Nat) (s : LRU) : Option (Nat × Nat) × LRU :=
  ((gcLoop extV extK s.list.length s 0).1, (gcLoop extV extK s.list.length s 0).2.1)

/-- Conditional pass `LRU::maybe_gc`: run `gc` only when `num_items > max_items`. -/
def maybe_gc (extV extK : Nat → Nat) (s : LRU) : Option (Nat × Nat) × LRU :=
  if s.max_items < s.num_items then gc extV extK s else (none, s)

/-- Operation `LRU::push(key, value)`: append a usage record at the tail; bump the
multiplicity if the key is already indexed, otherwise create a fresh index
entry with multiplicity 1 and bump `num_items`; then `maybe_gc`. -/
def push (extV extK : Nat → Nat) (s : LRU) (key value : Nat) :
    Option (Nat × Nat) × LRU :=
  match lookupMap s.map key with
  | some _ =>
    maybe_gc extV extK
      { s with list := s.list ++ [(key, value)],
               map := adjustCount s.map key (fun c => c + 1) }
  | none =>
    maybe_gc extV extK
      { s with list := s.list ++ [(key, value)],
               map := insertMap s.map key value 1,
               num_items := s.num_items + 1 }

/-- Environment with no external owners for any allocation. -/
def extZero : Nat → Nat := fun _ => 0

/-- One push step, discarding the eviction result (used to fold sequences of
pushes). -/
def pushStep (extV extK : Nat → Nat) (s : LRU) (p : Nat × Nat) : LRU :=
  (push extV extK s p.1 p.2).2

/-! ### Concrete eviction scenarios -/

/-- C2: starting from an empty capacity-3 cache, pushing keys 1, 2, 3
(distinct keys, no external handles retained) and then pushing key 4 returns
the evicted pair for key 1, the least-recently-touched key. -/
theorem push_1234_capacity3_evicts_key1 :
    (push extZero extZero
      (push extZero extZero
        (push extZero extZero
          (push extZero extZero (LRU.new 3) 1 10).2
          2 20).2
        3 30).2
      4 40).1 = some (1, 10) := by
  decide

/-- C3: push 1, 2, 3 into a capacity-3 cache, re-push key 1 with its same
value (a touch), then push key 4: the evicted pair is the one for key 2, not
key 1 — the stale head record for key 1 is discarded via its multiplicity and
the later touch of key 1 stays authoritative. -/
theorem touch_reordering_evicts_key2 :
    (push extZero extZero
      (push extZero extZero
        (push extZero extZero
          (push extZero extZero
            (push extZero extZero (LRU.new 3) 1 10).2
            2 20).2
          3 30).2
        1 10).2
      4 40).1 = some (2, 20) := by
  decide

/-! ### Unfolding lemmas for the eviction loop, one per branch of the source -/

/-- If the loop guard fails, `gc`'s loop exits immediately with no eviction,
no state change, and no further iterations. -/
theorem gcLoop_not_guard (extV extK : Nat → Nat) (fuel : Nat) (s : LRU) (it : Nat)
    (h : ¬(it < s.list.length ∧ s.max_items < s.num_items)) :
    gcLoop extV extK fuel s it = (none, s, it) := by
  cases fuel with
  | zero => rfl
  | succ n =>
    simp only [gcLoop]
    rw [if_neg h]

/-- Head record with multiplicity `> 1`: it is a stale duplicate; the count
is decremented and the scan continues. -/
theorem gcLoop_stale {extV extK : Nat → Nat} {fuel : Nat} {s : LRU}
    {it k v w c : Nat} {rest : List (Nat × Nat)}
    (hg : it < s.list.length ∧ s.max_items < s.num_items)
    (hl : s.list = (k, v) :: rest) (hm : lookupMap s.map k = some (w, c))
    (hc : 1 < c) :
    gcLoop extV extK (fuel + 1) s it =
      gcLoop extV extK fuel
        { s with list := rest, map := adjustCount s.map k (fun x => x - 1) }
        (it + 1) := by
  simp only [gcLoop]
  rw [if_pos hg, hl]
  simp [hm, hc]

/-- Head record with multiplicity `≤ 1` whose value is still externally
held (strong count above the cache's two internal holders): re-queued at
the tail, scan continues. -/
theorem gcLoop_pinned {extV extK : Nat → Nat} {fuel : Nat} {s : LRU}
    {it k v w c : Nat} {rest : List (Nat × Nat)}
    (hg : it < s.list.length ∧ s.max_items < s.num_items)
    (hl : s.list = (k, v) :: rest) (hm : lookupMap s.map k = some (w, c))
    (hc : ¬ 1 < c) (hs : 2 < strongCount v rest s.map extV) :
    gcLoop extV extK (fuel + 1) s it =
      gcLoop extV extK fuel { s with list := rest ++ [(k, v)] } (it + 1) := by
  simp only [gcLoop]
  rw [if_pos hg, hl]
  simp [hm, hc, hs]

/-- Head record with multiplicity `≤ 1` and no external owner of its value:
genuine eviction; the index entry is removed, `num_items` decremented, and
the pair returned. -/
theorem gcLoop_evict {extV extK : Nat → Nat} {fuel : Nat} {s : LRU}
    {it k v w c : Nat} {rest : List (Nat × Nat)}
    (hg : it < s.list.length ∧ s.max_items < s.num_items)
    (hl : s.list = (k, v) :: rest) (hm : lookupMap s.map k = some (w, c))
    (hc : ¬ 1 < c) (hs : ¬ 2 < strongCount v rest s.map extV) :
    gcLoop extV extK (fuel + 1) s it =
      (some (k, v),
        { s with list := rest, map := removeMap s.map k,
                 num_items := s.num_items - 1 },
        it + 1) := by
  simp only [gcLoop]
  rw [if_pos hg, hl]
  simp [hm, hc, hs]

/-- Head record whose key has no index entry: returned as evicted with no
index or count mutation. -/
theorem gcLoop_stray {extV extK : Nat → Nat} {fuel : Nat} {s : LRU}
    {it k v : Nat} {rest : List (Nat × Nat)}
    (hg : it < s.list.length ∧ s.max_items < s.num_items)
    (hl : s.list = (k, v) :: rest) (hm : lookupMap s.map k = none) :
    gcLoop extV extK (fuel + 1) s it =
      (some (k, v), { s with list := rest }, it + 1) := by
  simp only [gcLoop]
  rw [if_pos hg, hl]
  simp [hm]

/-- C7: calling `gc` on an empty cache, or on any cache whose item count is
at most the capacity, returns no eviction and leaves the whole state
unchanged. -/
theorem gc_noop_of_empty_or_le_max (extV extK : Nat → Nat) (s : LRU)
    (h : s.list = [] ∨ s.num_items ≤ s.max_items) :
    gc extV extK s = (none, s) := by
  rcases h with h | h
  · unfold gc
    rw [h]
    rfl
  · unfold gc
    rw [gcLoop_not_guard extV extK s.list.length s 0 (by omega)]

/-- Witness for C7 at the empty capacity-2 cache. -/
theorem gc_noop_of_empty_or_le_max_witness :
    gc extZero extZero (LRU.new 2) = (none, LRU.new 2) :=
  gc_noop_of_empty_or_le_max extZero extZero (LRU.new 2) (Or.inl rfl)

/-- C8: when the popped head record's key has no entry in the index map, the
pass does not fail: it returns that `(key, value)` record as the evicted
result and leaves the index map and the item count unmodified. -/
theorem gc_stray_head_returned_without_mutation (extV extK : Nat → Nat)
    (s : LRU) (k v : Nat) (rest : List (Nat × Nat))
    (hl : s.list = (k, v) :: rest) (hm : lookupMap s.map k = none)
    (hn : s.max_items < s.num_items) :
    (gc extV extK s).1 = some (k, v) ∧ (gc extV extK s).2.map = s.map ∧
      (gc extV extK s).2.num_items = s.num_items := by
  have hf : s.list.length = rest.length + 1 := by rw [hl]; rfl
  have hg : 0 < s.list.length ∧ s.max_items < s.num_items := by
    constructor
    · omega
    · exact hn
  unfold gc
  rw [hf, gcLoop_stray hg hl hm]
  exact ⟨rfl, rfl, rfl⟩

/-- Witness for C8 at a directly constructed torn state. -/
theorem gc_stray_head_returned_without_mutation_witness :
    (gc extZero extZero ⟨[(1, 10)], [], 5, 2⟩).1 = some (1, 10) ∧
      (gc extZero extZero ⟨[(1, 10)], [], 5, 2⟩).2.map = [] ∧
      (gc extZero extZero ⟨[(1, 10)], [], 5, 2⟩).2.num_items = 5 :=
  gc_stray_head_returned_without_mutation extZero extZero
    ⟨[(1, 10)], [], 5, 2⟩ 1 10 [] rfl rfl (by decide)

/-! ### Iteration bound and guard behaviour of the loop -/

/-- The final value of the loop's `iterations` counter never exceeds the
larger of its starting value and the current sequence length, for any fuel:
the guard `iterations < list.len()` is a hard cap. -/
theorem gcLoop_iterations_le (extV extK : Nat → Nat) :
    ∀ fuel (s : LRU) (it : Nat),
      (gcLoop extV extK fuel s it).2.2 ≤ max it s.list.length := by
  intro fuel
  induction fuel with
  | zero =>
    intro s it
    exact le_max_left _ _
  | succ n ih =>
    intro s it
    by_cases hg : it < s.list.length ∧ s.max_items < s.num_items
    · rcases hl : s.list with _ | ⟨⟨k, v⟩, rest⟩
      · rw [hl] at hg
        simp at hg
      · have hlen : ((k, v) :: rest).length = rest.length + 1 := rfl
        have hg' : it < rest.length + 1 := by
          have := hg.1
          rw [hl] at this
          omega
        rcases hm : lookupMap s.map k with _ | ⟨w, c⟩
        · rw [gcLoop_stray hg hl hm]
          show it + 1 ≤ max it ((k, v) :: rest).length
          omega
        · by_cases hc : 1 < c
          · rw [gcLoop_stale hg hl hm hc]
            have h1 :
                (gcLoop extV extK n
                  { s with list := rest,
                           map := adjustCount s.map k (fun x => x - 1) }
                  (it + 1)).2.2 ≤ max (it + 1) rest.length :=
              ih { s with list := rest,
                          map := adjustCount s.map k (fun x => x - 1) } (it + 1)
            omega
          · by_cases hs : 2 < strongCount v rest s.map extV
            · rw [gcLoop_pinned hg hl hm hc hs]
              have h1 :
                  (gcLoop extV extK n
                    { s with list := rest ++ [(k, v)] }
                    (it + 1)).2.2 ≤ max (it + 1) (rest ++ [(k, v)]).length :=
                ih { s with list := rest ++ [(k, v)] } (it + 1)
              have h2 : (rest ++ [(k, v)]).length = rest.length + 1 := by simp
              omega
            · rw [gcLoop_evict hg hl hm hc hs]
              show it + 1 ≤ max it ((k, v) :: rest).length
              omega
    · rw [gcLoop_not_guard extV extK _ s it hg]
      exact le_max_left _ _

/-- C6: every eviction pass terminates; the loop runs at most
`sequence length at entry` iterations (for any fuel), and it runs at all
only while the item count exceeds the maximum — if `num_items ≤ max_items`
it exits at once with nothing evicted and the state untouched. -/
theorem gc_iteration_bound_and_guard (extV extK : Nat → Nat) (fuel : Nat)
    (s : LRU) :
    (gcLoop extV extK fuel s 0).2.2 ≤ s.list.length ∧
      (s.num_items ≤ s.max_items →
        gcLoop extV extK fuel s 0 = (none, s, 0)) := by
  constructor
  · have := gcLoop_iterations_le extV extK fuel s 0
    omega
  · intro h
    exact gcLoop_not_guard extV extK fuel s 0 (by omega)

/-- Witness for C6: a pinned over-capacity cache where every head is
re-queued still stops within `list.length` iterations. -/
theorem gc_iteration_bound_and_guard_witness :
    (gcLoop (fun _ => 1) extZero 2 ⟨[(1, 10), (2, 20)], [(1, 10, 1), (2, 20, 1)], 2, 1⟩ 0).2.2 ≤ 2 ∧
      ((2 : Nat) ≤ 1 →
        gcLoop (fun _ => 1) extZero 2 ⟨[(1, 10), (2, 20)], [(1, 10, 1), (2, 20, 1)], 2, 1⟩ 0 =
          (none, ⟨[(1, 10), (2, 20)], [(1, 10, 1), (2, 20, 1)], 2, 1⟩, 0)) :=
  gc_iteration_bound_and_guard (fun _ => 1) extZero 2
    ⟨[(1, 10), (2, 20)], [(1, 10, 1), (2, 20, 1)], 2, 1⟩

/-! ### The eviction decision never inspects key owner counts -/

/-- The loop's result is the same under any two key-owner environments. -/
theorem gcLoop_extK_irrel (extV extK extK' : Nat → Nat) :
    ∀ fuel (s : LRU) (it : Nat),
      gcLoop extV extK fuel s it = gcLoop extV extK' fuel s it := by
  intro fuel
  induction fuel with
  | zero => intro s it; rfl
  | succ n ih =>
    intro s it
    by_cases hg : it < s.list.length ∧ s.max_items < s.num_items
    · rcases hl : s.list with _ | ⟨⟨k, v⟩, rest⟩
      · rw [hl] at hg
        simp at hg
      · rcases hm : lookupMap s.map k with _ | ⟨w, c⟩
        · rw [gcLoop_stray hg hl hm, gcLoop_stray hg hl hm]
        · by_cases hc : 1 < c
          · rw [gcLoop_stale hg hl hm hc, gcLoop_stale hg hl hm hc]
            exact ih _ _
          · by_cases hs : 2 < strongCount v rest s.map extV
            · rw [gcLoop_pinned hg hl hm hc hs, gcLoop_pinned hg hl hm hc hs]
              exact ih _ _
            · rw [gcLoop_evict hg hl hm hc hs, gcLoop_evict hg hl hm hc hs]
    · rw [gcLoop_not_guard extV extK _ s it hg,
        gcLoop_not_guard extV extK' _ s it hg]

/-- C10: eviction inspects only the value's owner count, never the key's:
`gc` is invariant under the key-owner environment, and a multiplicity-1 head
whose value has no external owner is evicted even when the caller holds
extra handles to the key (here 7 of them). -/
theorem gc_ignores_key_owner_count :
    (∀ extV extK extK' s, gc extV extK s = gc extV extK' s) ∧
      (push extZero (fun _ => 7)
        (push extZero (fun _ => 7) (LRU.new 1) 1 10).2 2 20).1 = some (1, 10) := by
  constructor
  · intro extV extK extK' s
    unfold gc
    rw [gcLoop_extK_irrel extV extK extK']
  · decide

/-- C4: during an eviction pass, a head record whose key has multiplicity 1
and whose value is held by some owner besides the cache's two internal
holders (strong count above 2) is re-appended to the tail of the sequence
instead of being evicted, and the scan continues; moreover a pass can exhaust
its budget reclaiming nothing, returning no eviction while the item count
still exceeds the maximum (soft capacity bound). -/
theorem gc_requeues_pinned_head_and_soft_bound :
    (∀ (extV extK : Nat → Nat) (fuel : Nat) (s : LRU) (it k v w : Nat)
        (rest : List (Nat × Nat)),
      s.list = (k, v) :: rest →
      it < s.list.length →
      s.max_items < s.num_items →
      lookupMap s.map k = some (w, 1) →
      2 < strongCount v rest s.map extV →
      gcLoop extV extK (fuel + 1) s it =
        gcLoop extV extK fuel { s with list := rest ++ [(k, v)] } (it + 1)) ∧
      (∃ (extV : Nat → Nat) (s : LRU),
        (gc extV extZero s).1 = none ∧
          (gc extV extZero s).2.max_items < (gc extV extZero s).2.num_items) := by
  constructor
  · intro extV extK fuel s it k v w rest hl hit hn hm hs
    exact gcLoop_pinned ⟨hit, hn⟩ hl hm (by omega) hs
  · refine ⟨fun x => if x = 10 then 1 else 0, ⟨[(1, 10)], [(1, 10, 1)], 1, 0⟩, ?_, ?_⟩
    · decide
    · decide

/-- Witness for C4: a capacity-0 cache holding one externally pinned entry;
its head is re-queued rather than evicted. -/
theorem gc_requeues_pinned_head_and_soft_bound_witness :
    gcLoop (fun x => if x = 10 then 1 else 0) extZero 1
        ⟨[(1, 10)], [(1, 10, 1)], 1, 0⟩ 0 =
      gcLoop (fun x => if x = 10 then 1 else 0) extZero 0
        ⟨[] ++ [(1, 10)], [(1, 10, 1)], 1, 0⟩ 1 :=
  gc_requeues_pinned_head_and_soft_bound.1
    (fun x => if x = 10 then 1 else 0) extZero 0
    ⟨[(1, 10)], [(1, 10, 1)], 1, 0⟩ 0 1 10 10 []
    rfl (by decide) (by decide) (by decide) (by decide)

/-! ### Association-list lemmas for the index map -/

theorem lookupMap_nil (k : Nat) : lookupMap [] k = none := rfl

theorem lookupMap_cons_self {e : Nat × Nat × Nat} {m : List (Nat × Nat × Nat)}
    {k : Nat} (h : e.1 = k) : lookupMap (e :: m) k = some e.2 := by
  unfold lookupMap
  rw [List.find?_cons_of_pos _ (by simp [h])]
  rfl

theorem lookupMap_cons_ne {e : Nat × Nat × Nat} {m : List (Nat × Nat × Nat)}
    {k : Nat} (h : ¬ e.1 = k) : lookupMap (e :: m) k = lookupMap m k := by
  unfold lookupMap
  rw [List.find?_cons_of_neg _ (by simp [h])]

theorem lookupMap_eq_none_iff {m : List (Nat × Nat × Nat)} {k : Nat} :
    lookupMap m k = none ↔ ∀ e ∈ m, ¬ e.1 = k := by
  simp [lookupMap, List.find?_eq_none]

theorem lookupMap_adjust_self {m : List (Nat × Nat × Nat)} {k v c : Nat}
    (f : Nat → Nat) (h : lookupMap m k = some (v, c)) :
    lookupMap (adjustCount m k f) k = some (v, f c) := by
  induction m with
  | nil => simp [lookupMap] at h
  | cons e m ih =>
    obtain ⟨ek, ev, ec⟩ := e
    simp only [adjustCount, List.map_cons]
    by_cases he : ek = k
    · subst he
      rw [lookupMap_cons_self rfl] at h
      simp only [Option.some.injEq, Prod.mk.injEq] at h
      rw [if_pos rfl, lookupMap_cons_self rfl, h.1, h.2]
    · rw [lookupMap_cons_ne he] at h
      rw [if_neg he, lookupMap_cons_ne he]
      exact ih h

theorem lookupMap_adjust_ne {m : List (Nat × Nat × Nat)} {k k' : Nat}
    (f : Nat → Nat) (h : ¬ k' = k) :
    lookupMap (adjustCount m k f) k' = lookupMap m k' := by
  induction m with
  | nil => rfl
  | cons e m ih =>
    obtain ⟨ek, ev, ec⟩ := e
    simp only [adjustCount, List.map_cons]
    by_cases he : ek = k
    · subst he
      rw [if_pos rfl, lookupMap_cons_ne (fun hk => h hk.symm),
        lookupMap_cons_ne (fun hk => h hk.symm)]
      exact ih
    · by_cases he' : ek = k'
      · rw [if_neg he, lookupMap_cons_self he', lookupMap_cons_self he']
      · rw [if_neg he, lookupMap_cons_ne he', lookupMap_cons_ne he']
        exact ih

theorem adjustCount_keys (m : List (Nat × Nat × Nat)) (k : Nat) (f : Nat → Nat) :
    (adjustCount m k f).map (fun e => e.1) = m.map (fun e => e.1) := by
  induction m with
  | nil => rfl
  | cons e m ih =>
    obtain ⟨ek, ev, ec⟩ := e
    by_cases he : ek = k <;> simp [adjustCount, he] at ih ⊢ <;> exact ih

theorem adjustCount_length (m : List (Nat × Nat × Nat)) (k : Nat) (f : Nat → Nat) :
    (adjustCount m k f).length = m.length := by
  simp [adjustCount]

theorem lookupMap_remove_self {m : List (Nat × Nat × Nat)} {k : Nat} :
    lookupMap (removeMap m k) k = none := by
  rw [lookupMap_eq_none_iff]
  intro e he
  have := List.of_mem_filter he
  simpa using this

theorem lookupMap_remove_ne {m : List (Nat × Nat × Nat)} {k k' : Nat}
    (h : ¬ k' = k) : lookupMap (removeMap m k) k' = lookupMap m k' := by
  induction m with
  | nil => rfl
  | cons e m ih =>
    obtain ⟨ek, ev, ec⟩ := e
    by_cases he : ek = k
    · subst he
      have : removeMap ((ek, ev, ec) :: m) ek = removeMap m ek := by
        simp [removeMap]
      rw [this, lookupMap_cons_ne (fun hk => h hk.symm)]
      exact ih
    · have : removeMap ((ek, ev, ec) :: m) k = (ek, ev, ec) :: removeMap m k := by
        simp [removeMap, he]
      rw [this]
      by_cases he' : ek = k'
      · rw [lookupMap_cons_self he', lookupMap_cons_self he']
      · rw [lookupMap_cons_ne he', lookupMap_cons_ne he']
        exact ih

theorem removeMap_keys_sublist (m : List (Nat × Nat × Nat)) (k : Nat) :
    ((removeMap m k).map (fun e => e.1)).Sublist (m.map (fun e => e.1)) :=
  (List.filter_sublist m).map (fun e => e.1)

theorem removeMap_eq_self {m : List (Nat × Nat × Nat)} {k : Nat}
    (h : ∀ e ∈ m, ¬ e.1 = k) : removeMap m k = m := by
  rw [removeMap, List.filter_eq_self]
  intro e he
  simpa using h e he

theorem length_removeMap {m : List (Nat × Nat × Nat)} {k v c : Nat}
    (hnd : (m.map (fun e => e.1)).Nodup) (h : lookupMap m k = some (v, c)) :
    (removeMap m k).length + 1 = m.length := by
  induction m with
  | nil => simp [lookupMap] at h
  | cons e m ih =>
    obtain ⟨ek, ev, ec⟩ := e
    simp only [List.map_cons, List.nodup_cons] at hnd
    by_cases he : ek = k
    · subst he
      have hr : removeMap ((ek, ev, ec) :: m) ek = removeMap m ek := by
        simp [removeMap]
      have hm : ∀ e ∈ m, ¬ e.1 = ek := by
        intro e hem heq
        exact hnd.1 (heq ▸ List.mem_map_of_mem (fun x => x.1) hem)
      rw [hr, removeMap_eq_self hm]
      simp
    · have hr : removeMap ((ek, ev, ec) :: m) k = (ek, ev, ec) :: removeMap m k := by
        simp [removeMap, he]
      rw [lookupMap_cons_ne he] at h
      rw [hr]
      simp only [List.length_cons]
      rw [ih hnd.2 h]

/-! ### Counting lemmas for usage records -/

theorem countKey_nil (k : Nat) : countKey [] k = 0 := rfl

theorem countKey_cons (k' k v : Nat) (l : List (Nat × Nat)) :
    countKey ((k, v) :: l) k' = countKey l k' + if k = k' then 1 else 0 := by
  simp [countKey, List.countP_cons]

theorem countKey_append (k : Nat) (l1 l2 : List (Nat × Nat)) :
    countKey (l1 ++ l2) k = countKey l1 k + countKey l2 k := by
  simp [countKey, List.countP_append]

/-! ### The multiplicity/count invariant (spec I1 and I2) -/

/-- Invariant over the components of a cache state: every indexed key's
multiplicity is at least 1 and equals the number of its usage records in the
sequence; unindexed keys have no records; `num_items` is the number of index
entries; index keys are pairwise distinct. -/
def InvC (l : List (Nat × Nat)) (m : List (Nat × Nat × Nat)) (ni : Nat) : Prop :=
  (∀ k v c, lookupMap m k = some (v, c) → 1 ≤ c ∧ c = countKey l k) ∧
  (∀ k, lookupMap m k = none → countKey l k = 0) ∧
  ni = m.length ∧
  (m.map (fun e => e.1)).Nodup

/-- The invariant, as a predicate on cache states. -/
def CacheInv (s : LRU) : Prop := InvC s.list s.map s.num_items

theorem InvC_new : InvC [] [] 0 := by
  refine ⟨?_, ?_, rfl, List.nodup_nil⟩
  · intro k v c h
    simp [lookupMap] at h
  · intro k _
    rfl

theorem InvC_stale {k v w c ni : Nat} {rest : List (Nat × Nat)}
    {m : List (Nat × Nat × Nat)}
    (h : InvC ((k, v) :: rest) m ni) (hm : lookupMap m k = some (w, c))
    (hc : 1 < c) :
    InvC rest (adjustCount m k (fun x => x - 1)) ni := by
  obtain ⟨h1, h2, h3, h4⟩ := h
  have hck : c = countKey rest k + 1 := by
    have := (h1 k w c hm).2
    rw [countKey_cons, if_pos rfl] at this
    omega
  refine ⟨?_, ?_, ?_, ?_⟩
  · intro k' v' c' hl
    by_cases hk : k' = k
    · subst hk
      rw [lookupMap_adjust_self _ hm] at hl
      simp only [Option.some.injEq, Prod.mk.injEq] at hl
      omega
    · rw [lookupMap_adjust_ne _ hk] at hl
      have := h1 k' v' c' hl
      rw [countKey_cons, if_neg (fun hk' => hk hk'.symm)] at this
      omega
  · intro k' hl
    by_cases hk : k' = k
    · subst hk
      rw [lookupMap_adjust_self _ hm] at hl
      simp at hl
    · rw [lookupMap_adjust_ne _ hk] at hl
      have := h2 k' hl
      rw [countKey_cons, if_neg (fun hk' => hk hk'.symm)] at this
      omega
  · rw [adjustCount_length]
    exact h3
  · rw [adjustCount_keys]
    exact h4

theorem InvC_pinned {k v ni : Nat} {rest : List (Nat × Nat)}
    {m : List (Nat × Nat × Nat)}
    (h : InvC ((k, v) :: rest) m ni) :
    InvC (rest ++ [(k, v)]) m ni := by
  obtain ⟨h1, h2, h3, h4⟩ := h
  have hco : ∀ k', countKey (rest ++ [(k, v)]) k' = countKey ((k, v) :: rest) k' := by
    intro k'
    rw [countKey_append, countKey_cons, countKey_cons, countKey_nil]
    omega
  refine ⟨?_, ?_, h3, h4⟩
  · intro k' v' c' hl
    rw [hco]
    exact h1 k' v' c' hl
  · intro k' hl
    rw [hco]
    exact h2 k' hl

theorem InvC_evict {k v w c ni : Nat} {rest : List (Nat × Nat)}
    {m : List (Nat × Nat × Nat)}
    (h : InvC ((k, v) :: rest) m ni) (hm : lookupMap m k = some (w, c))
    (hc : ¬ 1 < c) :
    InvC rest (removeMap m k) (ni - 1) := by
  obtain ⟨h1, h2, h3, h4⟩ := h
  have hck : countKey rest k = 0 := by
    have ha := h1 k w c hm
    have := ha.2
    rw [countKey_cons, if_pos rfl] at this
    omega
  refine ⟨?_, ?_, ?_, ?_⟩
  · intro k' v' c' hl
    by_cases hk : k' = k
    · subst hk
      rw [lookupMap_remove_self] at hl
      simp at hl
    · rw [lookupMap_remove_ne hk] at hl
      have := h1 k' v' c' hl
      rw [countKey_cons, if_neg (fun hk' => hk hk'.symm)] at this
      omega
  · intro k' hl
    by_cases hk : k' = k
    · subst hk
      exact hck
    · rw [lookupMap_remove_ne hk] at hl
      have := h2 k' hl
      rw [countKey_cons, if_neg (fun hk' => hk hk'.symm)] at this
      omega
  · have := length_removeMap h4 hm
    omega
  · exact h4.sublist (removeMap_keys_sublist m k)

theorem InvC_stray_false {k v ni : Nat} {rest : List (Nat × Nat)}
    {m : List (Nat × Nat × Nat)}
    (h : InvC ((k, v) :: rest) m ni) (hm : lookupMap m k = none) : False := by
  obtain ⟨h1, h2, h3, h4⟩ := h
  have := h2 k hm
  rw [countKey_cons, if_pos rfl] at this
  omega

theorem CacheInv_gcLoop (extV extK : Nat → Nat) :
    ∀ fuel (s : LRU) (it : Nat), CacheInv s →
      CacheInv (gcLoop extV extK fuel s it).2.1 := by
  intro fuel
  induction fuel with
  | zero => intro s it h; exact h
  | succ n ih =>
    intro s it h
    by_cases hg : it < s.list.length ∧ s.max_items < s.num_items
    · rcases hl : s.list with _ | ⟨⟨k, v⟩, rest⟩
      · rw [hl] at hg
        simp at hg
      · have hinv : InvC ((k, v) :: rest) s.map s.num_items := by
          rw [← hl]
          exact h
        rcases hm : lookupMap s.map k with _ | ⟨w, c⟩
        · exact (InvC_stray_false hinv hm).elim
        · by_cases hc : 1 < c
          · rw [gcLoop_stale hg hl hm hc]
            exact ih _ _ (InvC_stale hinv hm hc)
          · by_cases hs : 2 < strongCount v rest s.map extV
            · rw [gcLoop_pinned hg hl hm hc hs]
              exact ih _ _ (InvC_pinned hinv)
            · rw [gcLoop_evict hg hl hm hc hs]
              exact InvC_evict hinv hm hc
    · rw [gcLoop_not_guard extV extK _ s it hg]
      exact h

theorem CacheInv_gc (extV extK : Nat → Nat) (s : LRU) (h : CacheInv s) :
    CacheInv (gc extV extK s).2 :=
  CacheInv_gcLoop extV extK s.list.length s 0 h

theorem CacheInv_maybe_gc (extV extK : Nat → Nat) (s : LRU) (h : CacheInv s) :
    CacheInv (maybe_gc extV extK s).2 := by
  unfold maybe_gc
  split
  · exact CacheInv_gc extV extK s h
  · exact h

theorem insertMap_of_none {m : List (Nat × Nat × Nat)} {k : Nat} (v c : Nat)
    (h : lookupMap m k = none) : insertMap m k v c = (k, v, c) :: m := by
  have hfalse : ¬ (m.any (fun e => e.1 == k) = true) := by
    intro hex
    rw [List.any_eq_true] at hex
    obtain ⟨e, he, heq⟩ := hex
    rw [lookupMap_eq_none_iff] at h
    exact h e he (by simpa using heq)
  rw [insertMap, if_neg hfalse]

theorem InvC_push_old {l : List (Nat × Nat)} {m : List (Nat × Nat × Nat)}
    {ni k v w c : Nat}
    (h : InvC l m ni) (hm : lookupMap m k = some (w, c)) :
    InvC (l ++ [(k, v)]) (adjustCount m k (fun x => x + 1)) ni := by
  obtain ⟨h1, h2, h3, h4⟩ := h
  have hone : ∀ k', countKey [(k, v)] k' = if k = k' then 1 else 0 := by
    intro k'
    rw [countKey_cons, countKey_nil]
    exact Nat.zero_add _
  refine ⟨?_, ?_, ?_, ?_⟩
  · intro k' v' c' hl
    by_cases hk : k' = k
    · subst hk
      rw [lookupMap_adjust_self _ hm] at hl
      simp only [Option.some.injEq, Prod.mk.injEq] at hl
      have := h1 k' w c hm
      rw [countKey_append, hone, if_pos rfl]
      omega
    · rw [lookupMap_adjust_ne _ hk] at hl
      have := h1 k' v' c' hl
      rw [countKey_append, hone, if_neg (fun hk' => hk hk'.symm)]
      omega
  · intro k' hl
    by_cases hk : k' = k
    · subst hk
      rw [lookupMap_adjust_self _ hm] at hl
      simp at hl
    · rw [lookupMap_adjust_ne _ hk] at hl
      have := h2 k' hl
      rw [countKey_append, hone, if_neg (fun hk' => hk hk'.symm)]
      omega
  · rw [adjustCount_length]
    exact h3
  · rw [adjustCount_keys]
    exact h4

theorem InvC_push_new {l : List (Nat × Nat)} {m : List (Nat × Nat × Nat)}
    {ni k v : Nat}
    (h : InvC l m ni) (hm : lookupMap m k = none) :
    InvC (l ++ [(k, v)]) ((k, v, 1) :: m) (ni + 1) := by
  obtain ⟨h1, h2, h3, h4⟩ := h
  have hone : ∀ k', countKey [(k, v)] k' = if k = k' then 1 else 0 := by
    intro k'
    rw [countKey_cons, countKey_nil]
    exact Nat.zero_add _
  refine ⟨?_, ?_, ?_, ?_⟩
  · intro k' v' c' hl
    by_cases hk : k' = k
    · subst hk
      rw [lookupMap_cons_self rfl] at hl
      simp only [Option.some.injEq, Prod.mk.injEq] at hl
      have := h2 k' hm
      rw [countKey_append, hone, if_pos rfl]
      omega
    · rw [lookupMap_cons_ne (fun hk' => hk hk'.symm)] at hl
      have := h1 k' v' c' hl
      rw [countKey_append, hone, if_neg (fun hk' => hk hk'.symm)]
      omega
  · intro k' hl
    by_cases hk : k' = k
    · subst hk
      rw [lookupMap_cons_self rfl] at hl
      simp at hl
    · rw [lookupMap_cons_ne (fun hk' => hk hk'.symm)] at hl
      have := h2 k' hl
      rw [countKey_append, hone, if_neg (fun hk' => hk hk'.symm)]
      omega
  · simp only [List.length_cons]
    omega
  · simp only [List.map_cons, List.nodup_cons]
    refine ⟨?_, h4⟩
    rw [lookupMap_eq_none_iff] at hm
    intro hkmem
    obtain ⟨e, he, heq⟩ := List.mem_map.mp hkmem
    exact hm e he heq

theorem CacheInv_push (extV extK : Nat → Nat) (s : LRU) (k v : Nat)
    (h : CacheInv s) : CacheInv (push extV extK s k v).2 := by
  rcases hm : lookupMap s.map k with _ | ⟨w, c⟩
  · have hins := insertMap_of_none v 1 hm
    simp only [push, hm, hins]
    exact CacheInv_maybe_gc extV extK _ (InvC_push_new h hm)
  · simp only [push, hm]
    exact CacheInv_maybe_gc extV extK _ (InvC_push_old h hm)

/-! ### Reachable states -/

/-- The documented contract of `push`: a key already resident must be pushed
with the value already stored for it. -/
def contractOK (s : LRU) (k v : Nat) : Prop :=
  (lookupMap s.map k).all (fun p => p.1 == v) = true

/-- Cache states reachable from a fresh cache by `push` and `gc` calls that
respect the one-value-per-key contract, under arbitrary external-owner
environments. -/
inductive Reachable : LRU → Prop
  | initial (max_items : Nat) : Reachable (LRU.new max_items)
  | pushed (extV extK : Nat → Nat) (s : LRU) (k v : Nat) :
      Reachable s → contractOK s k v → Reachable (push extV extK s k v).2
  | collected (extV extK : Nat → Nat) (s : LRU) :
      Reachable s → Reachable (gc extV extK s).2

theorem CacheInv_reachable {s : LRU} (h : Reachable s) : CacheInv s := by
  induction h with
  | initial max_items => exact InvC_new
  | pushed extV extK s k v _ _ ih => exact CacheInv_push extV extK s k v ih
  | collected extV extK s _ ih => exact CacheInv_gc extV extK s ih

/-- C5: in every reachable cache state (pushes respecting the
one-value-per-key contract, arbitrary collects), every indexed key's stored
multiplicity is at least 1 and equals the exact number of usage records for
that key in the ordered sequence. -/
theorem multiplicity_matches_records (s : LRU) (hs : Reachable s)
    (k v c : Nat) (h : lookupMap s.map k = some (v, c)) :
    1 ≤ c ∧ c = countKey s.list k :=
  (CacheInv_reachable hs).1 k v c h

/-- The state obtained by pushing key 1 (value 5) twice into a fresh
capacity-3 cache. -/
def twicePushed : LRU :=
  (push extZero extZero (push extZero extZero (LRU.new 3) 1 5).2 1 5).2

theorem twicePushed_reachable : Reachable twicePushed :=
  Reachable.pushed extZero extZero (push extZero extZero (LRU.new 3) 1 5).2 1 5
    (Reachable.pushed extZero extZero (LRU.new 3) 1 5
      (Reachable.initial 3) rfl)
    rfl

/-- Witness for C5: pushing the same key twice yields one index entry with
multiplicity 2, two usage records, and item count 1. -/
theorem multiplicity_matches_records_witness :
    (1 ≤ 2 ∧ 2 = countKey twicePushed.list 1) ∧
      lookupMap twicePushed.map 1 = some (5, 2) ∧
      twicePushed.list.length = 2 ∧ twicePushed.num_items = 1 :=
  ⟨multiplicity_matches_records twicePushed twicePushed_reachable 1 5 2
      (by decide),
    by decide, by decide, by decide⟩

/-- C9: in every reachable cache state (pushes respecting the
one-value-per-key contract, arbitrary collects), `num_items` equals the
number of entries of the index map, whose keys are pairwise distinct — the
number of distinct resident keys, not the sequence length. -/
theorem num_items_counts_distinct_keys (s : LRU) (hs : Reachable s) :
    s.num_items = s.map.length ∧ (s.map.map (fun e => e.1)).Nodup :=
  ⟨(CacheInv_reachable hs).2.2.1, (CacheInv_reachable hs).2.2.2⟩

/-- Witness for C9: at `twicePushed` the item count is the map size (1), not
the sequence length (2). -/
theorem num_items_counts_distinct_keys_witness :
    (twicePushed.num_items = twicePushed.map.length ∧
      (twicePushed.map.map (fun e => e.1)).Nodup) ∧
      twicePushed.list.length = 2 ∧ twicePushed.map.length = 1 :=
  ⟨num_items_counts_distinct_keys twicePushed twicePushed_reachable,
    by decide, by decide⟩

/-! ### Capacity bound for distinct unpinned pushes (C1) -/

theorem countValue_cons (v' k v : Nat) (l : List (Nat × Nat)) :
    countValue ((k, v) :: l) v' = countValue l v' + if v = v' then 1 else 0 := by
  simp [countValue, List.countP_cons]

theorem countValue_append (v : Nat) (l1 l2 : List (Nat × Nat)) :
    countValue (l1 ++ l2) v = countValue l1 v + countValue l2 v := by
  simp [countValue, List.countP_append]

theorem countValue_reverse (v : Nat) (l : List (Nat × Nat)) :
    countValue l.reverse v = countValue l v :=
  (List.reverse_perm l).countP_eq _

theorem countValue_eq_zero {v : Nat} {l : List (Nat × Nat)}
    (h : v ∉ l.map (fun p => p.2)) : countValue l v = 0 := by
  rw [countValue, List.countP_eq_zero]
  intro p hp hpv
  exact h (List.mem_map.mpr ⟨p, hp, by simpa using hpv⟩)

theorem countValueMap_cons (v : Nat) (e : Nat × Nat × Nat)
    (m : List (Nat × Nat × Nat)) :
    countValueMap (e :: m) v = countValueMap m v + if e.2.1 = v then 1 else 0 := by
  simp [countValueMap, List.countP_cons]

theorem countValueMap_entries (v : Nat) (l : List (Nat × Nat)) :
    countValueMap (l.map (fun p => (p.1, p.2, 1))) v = countValue l v := by
  rw [countValueMap, List.countP_map, countValue]
  rfl

theorem lookupMap_append_of_ne {m1 m2 : List (Nat × Nat × Nat)} {k : Nat}
    (h : ∀ e ∈ m1, ¬ e.1 = k) :
    lookupMap (m1 ++ m2) k = lookupMap m2 k := by
  induction m1 with
  | nil => rfl
  | cons e m1 ih =>
    rw [List.cons_append, lookupMap_cons_ne (h e (List.mem_cons_self e m1))]
    exact ih (fun e' he' => h e' (List.mem_cons_of_mem e he'))

theorem removeMap_cons_ne {e : Nat × Nat × Nat} {m : List (Nat × Nat × Nat)}
    {k : Nat} (h : ¬ e.1 = k) : removeMap (e :: m) k = e :: removeMap m k := by
  simp [removeMap, h]

theorem removeMap_append (m1 m2 : List (Nat × Nat × Nat)) (k : Nat) :
    removeMap (m1 ++ m2) k = removeMap m1 k ++ removeMap m2 k := by
  simp [removeMap, List.filter_append]

/-- States reachable from a fresh cache by pushes of pairwise-fresh keys and
values with no external owners: the index is exactly the (reversed) sequence
with all multiplicities 1, keys and values in the sequence are pairwise
distinct, the item count is the sequence length, and it is within capacity. -/
def GoodC1 (s : LRU) : Prop :=
  s.map = s.list.reverse.map (fun p => (p.1, p.2, 1)) ∧
  (s.list.map (fun p => p.1)).Nodup ∧
  (s.list.map (fun p => p.2)).Nodup ∧
  s.num_items = s.list.length ∧
  s.num_items ≤ s.max_items

theorem GoodC1_new (max_items : Nat) : GoodC1 (LRU.new max_items) :=
  ⟨rfl, List.nodup_nil, List.nodup_nil, rfl, Nat.zero_le _⟩

theorem GoodC1_lookup_none {s : LRU} {k : Nat} (hmap : GoodC1 s)
    (hk : k ∉ s.list.map (fun p => p.1)) : lookupMap s.map k = none := by
  rw [hmap.1, lookupMap_eq_none_iff]
  intro e he heq
  obtain ⟨p, hp, hpe⟩ := List.mem_map.mp he
  apply hk
  apply List.mem_map.mpr
  refine ⟨p, (List.reverse_perm s.list).mem_iff.mp hp, ?_⟩
  rw [← hpe] at heq
  simpa using heq

/-- A fresh over-capacity singleton: the lone (unpinned) record is evicted
at once. -/
theorem gc_fresh_single (extK : Nat → Nat) (k v n mx : Nat) (hguard : mx < n) :
    gc extZero extK ⟨[(k, v)], [(k, v, 1)], n, mx⟩ =
      (some (k, v), ⟨[], [], n - 1, mx⟩) := by
  have hm : lookupMap [(k, v, 1)] k = some (v, 1) := lookupMap_cons_self rfl
  have hsc : strongCount v [] [(k, v, 1)] extZero = 2 := by
    simp [strongCount, countValue, countValueMap, List.countP_cons, extZero]
  have hg0 : (0 : Nat) < [((k : Nat), v)].length := by simp
  have hc1 : ¬ (1 : Nat) < 1 := by decide
  have hslt : ¬ 2 < strongCount v [] [(k, v, 1)] extZero := by omega
  show ((gcLoop extZero extK (0 + 1) ⟨[(k, v)], [(k, v, 1)], n, mx⟩ 0).1,
    (gcLoop extZero extK (0 + 1) ⟨[(k, v)], [(k, v, 1)], n, mx⟩ 0).2.1) = _
  rw [gcLoop_evict ⟨hg0, hguard⟩ rfl hm hc1 hslt]
  show (some ((k : Nat), v),
    ({ list := [], map := removeMap [((k : Nat), v, 1)] k,
       num_items := n - 1, max_items := mx } : LRU)) = _
  have hrm : removeMap [((k : Nat), v, 1)] k = [] := by simp [removeMap]
  rw [hrm]

/-- Pushing a fresh unpinned pair onto an over-capacity all-fresh cache: the
head (least recently touched) record is evicted. -/
theorem gc_fresh_evicts_head (extK : Nat → Nat) (k0 v0 k v : Nat)
    (rest0 : List (Nat × Nat)) (n mx : Nat)
    (hknd : (((k0, v0) :: rest0).map (fun p => p.1)).Nodup)
    (hvnd : (((k0, v0) :: rest0).map (fun p => p.2)).Nodup)
    (hk : k ∉ ((k0, v0) :: rest0).map (fun p => p.1))
    (hv : v ∉ ((k0, v0) :: rest0).map (fun p => p.2))
    (hguard : mx < n) :
    gc extZero extK
      ⟨(k0, v0) :: (rest0 ++ [(k, v)]),
        (k, v, 1) :: ((k0, v0) :: rest0).reverse.map (fun p => (p.1, p.2, 1)),
        n, mx⟩ =
      (some (k0, v0),
        ⟨rest0 ++ [(k, v)],
          (k, v, 1) :: rest0.reverse.map (fun p => (p.1, p.2, 1)),
          n - 1, mx⟩) := by
  simp only [List.map_cons, List.mem_cons, not_or] at hk hv
  simp only [List.map_cons, List.nodup_cons] at hknd hvnd
  have hk0rest : ∀ e ∈ rest0.reverse.map (fun p => ((p.1 : Nat), p.2, 1)), ¬ e.1 = k0 := by
    intro e he heq
    obtain ⟨p, hp, hpe⟩ := List.mem_map.mp he
    apply hknd.1
    apply List.mem_map.mpr
    refine ⟨p, (List.reverse_perm rest0).mem_iff.mp hp, ?_⟩
    rw [← hpe] at heq
    simpa using heq
  have hm : lookupMap
      ((k, v, 1) :: ((k0, v0) :: rest0).reverse.map (fun p => (p.1, p.2, 1))) k0 =
      some (v0, 1) := by
    rw [lookupMap_cons_ne (by simpa using hk.1), List.reverse_cons, List.map_append,
      lookupMap_append_of_ne hk0rest]
    exact lookupMap_cons_self rfl
  have hscv : countValue (rest0 ++ [(k, v)]) v0 = 0 := by
    rw [countValue_append, countValue_eq_zero hvnd.1, countValue_cons]
    simp [countValue, hv.1]
  have hscm : countValueMap
      ((k, v, 1) :: ((k0, v0) :: rest0).reverse.map (fun p => (p.1, p.2, 1))) v0 = 1 := by
    rw [countValueMap_cons, countValueMap_entries, countValue_reverse, countValue_cons,
      countValue_eq_zero hvnd.1]
    simp [hv.1]
  have hsc : strongCount v0 (rest0 ++ [(k, v)])
      ((k, v, 1) :: ((k0, v0) :: rest0).reverse.map (fun p => (p.1, p.2, 1))) extZero = 2 := by
    rw [strongCount, hscv, hscm]
    rfl
  have hrm : removeMap
      ((k, v, 1) :: ((k0, v0) :: rest0).reverse.map (fun p => (p.1, p.2, 1))) k0 =
      (k, v, 1) :: rest0.reverse.map (fun p => (p.1, p.2, 1)) := by
    rw [removeMap_cons_ne (by simpa using hk.1), List.reverse_cons, List.map_append,
      removeMap_append, removeMap_eq_self hk0rest]
    simp [removeMap]
  have hg0 : (0 : Nat) < ((k0, v0) :: (rest0 ++ [((k : Nat), v)])).length := by simp
  have hc1 : ¬ (1 : Nat) < 1 := by decide
  have hslt : ¬ 2 < strongCount v0 (rest0 ++ [(k, v)])
      ((k, v, 1) :: ((k0, v0) :: rest0).reverse.map (fun p => (p.1, p.2, 1))) extZero := by
    omega
  show ((gcLoop extZero extK ((rest0 ++ [(k, v)]).length + 1)
      ⟨(k0, v0) :: (rest0 ++ [(k, v)]),
        (k, v, 1) :: ((k0, v0) :: rest0).reverse.map (fun p => (p.1, p.2, 1)),
        n, mx⟩ 0).1,
    (gcLoop extZero extK ((rest0 ++ [(k, v)]).length + 1)
      ⟨(k0, v0) :: (rest0 ++ [(k, v)]),
        (k, v, 1) :: ((k0, v0) :: rest0).reverse.map (fun p => (p.1, p.2, 1)),
        n, mx⟩ 0).2.1) = _
  rw [gcLoop_evict ⟨hg0, hguard⟩ rfl hm hc1 hslt]
  show (some ((k0 : Nat), (v0 : Nat)),
    ({ list := rest0 ++ [(k, v)],
       map := removeMap
         ((k, v, 1) :: ((k0, v0) :: rest0).reverse.map (fun p => (p.1, p.2, 1))) k0,
       num_items := n - 1, max_items := mx } : LRU)) = _
  rw [hrm]

/-- Pushing a fresh key and fresh value with no external owners preserves
`GoodC1`, keeps the capacity, and only adds the new key/value to the pools
of resident keys/values. -/
theorem push_fresh (extK : Nat → Nat) (s : LRU) (k v : Nat)
    (hG : GoodC1 s) (hk : k ∉ s.list.map (fun p => p.1))
    (hv : v ∉ s.list.map (fun p => p.2)) :
    GoodC1 (push extZero extK s k v).2 ∧
      (push extZero extK s k v).2.max_items = s.max_items ∧
      (∀ x ∈ (push extZero extK s k v).2.list.map (fun p => p.1),
        x ∈ k :: s.list.map (fun p => p.1)) ∧
      (∀ x ∈ (push extZero extK s k v).2.list.map (fun p => p.2),
        x ∈ v :: s.list.map (fun p => p.2)) := by
  obtain ⟨hmap, hknd, hvnd, hlen, hcap⟩ := hG
  have hlk : lookupMap s.map k = none :=
    GoodC1_lookup_none ⟨hmap, hknd, hvnd, hlen, hcap⟩ hk
  have hins := insertMap_of_none v 1 hlk
  have hpush : push extZero extK s k v = maybe_gc extZero extK ⟨s.list ++ [(k, v)], (k, v, 1) :: s.map, s.num_items + 1, s.max_items⟩ := by
    simp only [push, hlk, hins]
  rw [hpush]
  by_cases hover : s.max_items < s.num_items + 1
  · rcases hls : s.list with _ | ⟨⟨k0, v0⟩, rest0⟩
    · have hmap0 : s.map = [] := by
        rw [hmap, hls]
        rfl
      have hnum0 : s.num_items = 0 := by
        rw [hlen, hls]
        rfl
      have hseq : (⟨([] : List (Nat × Nat)) ++ [(k, v)], (k, v, 1) :: s.map, s.num_items + 1, s.max_items⟩ : LRU) = ⟨[(k, v)], [(k, v, 1)], s.num_items + 1, s.max_items⟩ := by
        rw [hmap0]
        rfl
      rw [hseq]
      have hmg : maybe_gc extZero extK (⟨[(k, v)], [(k, v, 1)], s.num_items + 1, s.max_items⟩ : LRU) = gc extZero extK ⟨[(k, v)], [(k, v, 1)], s.num_items + 1, s.max_items⟩ := by
        rw [maybe_gc, if_pos]
        exact hover
      rw [hmg, gc_fresh_single extK k v (s.num_items + 1) s.max_items hover]
      refine ⟨⟨rfl, List.nodup_nil, List.nodup_nil, ?_, ?_⟩, rfl, ?_, ?_⟩
      · show s.num_items + 1 - 1 = ([] : List (Nat × Nat)).length
        simp [hnum0]
      · show s.num_items + 1 - 1 ≤ s.max_items
        omega
      · intro x hx
        simp at hx
      · intro x hx
        simp at hx
    · rw [hls] at hknd hvnd hk hv
      have hmap' : s.map = ((k0, v0) :: rest0).reverse.map (fun p => (p.1, p.2, 1)) := by
        rw [hmap, hls]
      have hseq : (⟨((k0, v0) :: rest0) ++ [(k, v)], (k, v, 1) :: s.map, s.num_items + 1, s.max_items⟩ : LRU) = ⟨(k0, v0) :: (rest0 ++ [(k, v)]), (k, v, 1) :: ((k0, v0) :: rest0).reverse.map (fun p => (p.1, p.2, 1)), s.num_items + 1, s.max_items⟩ := by
        rw [hmap']
        rfl
      rw [hseq]
      have hmg : maybe_gc extZero extK (⟨(k0, v0) :: (rest0 ++ [(k, v)]), (k, v, 1) :: ((k0, v0) :: rest0).reverse.map (fun p => (p.1, p.2, 1)), s.num_items + 1, s.max_items⟩ : LRU) = gc extZero extK ⟨(k0, v0) :: (rest0 ++ [(k, v)]), (k, v, 1) :: ((k0, v0) :: rest0).reverse.map (fun p => (p.1, p.2, 1)), s.num_items + 1, s.max_items⟩ := by
        rw [maybe_gc, if_pos]
        exact hover
      rw [hmg, gc_fresh_evicts_head extK k0 v0 k v rest0 (s.num_items + 1)
        s.max_items hknd hvnd hk hv hover]
      have hnum : s.num_items = rest0.length + 1 := by
        rw [hlen, hls]
        rfl
      simp only [List.map_cons, List.mem_cons, not_or] at hk hv
      simp only [List.map_cons, List.nodup_cons] at hknd hvnd
      refine ⟨⟨?_, ?_, ?_, ?_, ?_⟩, rfl, ?_, ?_⟩
      · show (k, v, 1) :: rest0.reverse.map (fun p => (p.1, p.2, 1)) =
          (rest0 ++ [(k, v)]).reverse.map (fun p => (p.1, p.2, 1))
        rw [List.reverse_append]
        simp
      · show ((rest0 ++ [(k, v)]).map (fun p => p.1)).Nodup
        rw [List.map_append]
        show (rest0.map (fun p => p.1) ++ [k]).Nodup
        exact ((List.perm_append_singleton _ _).nodup_iff).mpr
          (List.nodup_cons.mpr ⟨hk.2, hknd.2⟩)
      · show ((rest0 ++ [(k, v)]).map (fun p => p.2)).Nodup
        rw [List.map_append]
        show (rest0.map (fun p => p.2) ++ [v]).Nodup
        exact ((List.perm_append_singleton _ _).nodup_iff).mpr
          (List.nodup_cons.mpr ⟨hv.2, hvnd.2⟩)
      · show s.num_items + 1 - 1 = (rest0 ++ [(k, v)]).length
        rw [List.length_append]
        simp [hnum]
      · show s.num_items + 1 - 1 ≤ s.max_items
        omega
      · intro x hx
        simp at hx ⊢
        tauto
      · intro x hx
        simp at hx ⊢
        tauto
  · have hmg : maybe_gc extZero extK (⟨s.list ++ [(k, v)], (k, v, 1) :: s.map, s.num_items + 1, s.max_items⟩ : LRU) = (none, ⟨s.list ++ [(k, v)], (k, v, 1) :: s.map, s.num_items + 1, s.max_items⟩) := by
      rw [maybe_gc, if_neg]
      exact hover
    rw [hmg]
    refine ⟨⟨?_, ?_, ?_, ?_, ?_⟩, rfl, ?_, ?_⟩
    · show (k, v, 1) :: s.map =
        (s.list ++ [(k, v)]).reverse.map (fun p => (p.1, p.2, 1))
      rw [List.reverse_append]
      simp [hmap]
    · show ((s.list ++ [(k, v)]).map (fun p => p.1)).Nodup
      rw [List.map_append]
      show (s.list.map (fun p => p.1) ++ [k]).Nodup
      exact ((List.perm_append_singleton _ _).nodup_iff).mpr
        (List.nodup_cons.mpr ⟨hk, hknd⟩)
    · show ((s.list ++ [(k, v)]).map (fun p => p.2)).Nodup
      rw [List.map_append]
      show (s.list.map (fun p => p.2) ++ [v]).Nodup
      exact ((List.perm_append_singleton _ _).nodup_iff).mpr
        (List.nodup_cons.mpr ⟨hv, hvnd⟩)
    · show s.num_items + 1 = (s.list ++ [(k, v)]).length
      rw [List.length_append]
      simp [hlen]
    · show s.num_items + 1 ≤ s.max_items
      omega
    · intro x hx
      simp at hx ⊢
      tauto
    · intro x hx
      simp at hx ⊢
      tauto

/-- Along any sequence of fresh distinct unpinned pushes, every intermediate
state satisfies `GoodC1` and keeps the original capacity. -/
theorem scanl_pushes_good :
    ∀ (pairs : List (Nat × Nat)) (s : LRU), GoodC1 s →
      (∀ p ∈ pairs, p.1 ∉ s.list.map (fun q => q.1)) →
      (∀ p ∈ pairs, p.2 ∉ s.list.map (fun q => q.2)) →
      (pairs.map (fun p => p.1)).Nodup →
      (pairs.map (fun p => p.2)).Nodup →
      ∀ t ∈ List.scanl (pushStep extZero extZero) s pairs,
        GoodC1 t ∧ t.max_items = s.max_items := by
  intro pairs
  induction pairs with
  | nil =>
    intro s hG _ _ _ _ t ht
    simp only [List.scanl] at ht
    rw [List.mem_singleton] at ht
    subst ht
    exact ⟨hG, rfl⟩
  | cons p ps ih =>
    intro s hG hks hvs hknd hvnd t ht
    obtain ⟨k, v⟩ := p
    rw [List.scanl_cons, List.singleton_append] at ht
    rcases List.mem_cons.mp ht with h | h
    · subst h
      exact ⟨hG, rfl⟩
    · have hk0 : k ∉ s.list.map (fun q => q.1) :=
        hks (k, v) (List.mem_cons_self _ _)
      have hv0 : v ∉ s.list.map (fun q => q.2) :=
        hvs (k, v) (List.mem_cons_self _ _)
      have hf := push_fresh extZero s k v hG hk0 hv0
      simp only [List.map_cons, List.nodup_cons] at hknd hvnd
      have hpks : ∀ q ∈ ps,
          q.1 ∉ (pushStep extZero extZero s (k, v)).list.map (fun r => r.1) := by
        intro q hq hmem
        rcases List.mem_cons.mp (hf.2.2.1 q.1 hmem) with he | he
        · exact hknd.1 (he ▸ List.mem_map_of_mem (fun r => r.1) hq)
        · exact hks q (List.mem_cons_of_mem _ hq) he
      have hpvs : ∀ q ∈ ps,
          q.2 ∉ (pushStep extZero extZero s (k, v)).list.map (fun r => r.2) := by
        intro q hq hmem
        rcases List.mem_cons.mp (hf.2.2.2 q.2 hmem) with he | he
        · exact hvnd.1 (he ▸ List.mem_map_of_mem (fun r => r.2) hq)
        · exact hvs q (List.mem_cons_of_mem _ hq) he
      have ih' := ih (pushStep extZero extZero s (k, v)) hf.1 hpks hpvs
        hknd.2 hvnd.2 t h
      exact ⟨ih'.1, ih'.2.trans hf.2.1⟩

/-- C1: for any sequence of at least `capacity + 1` pushes of pairwise
distinct keys and pairwise distinct (freshly allocated) values, with the
caller retaining no external handle to any pushed key or value, the item
count is at most the capacity after every push (and before any). -/
theorem capacity_bound_no_external_pinning (mx : Nat)
    (pairs : List (Nat × Nat))
    (hknd : (pairs.map (fun p => p.1)).Nodup)
    (hvnd : (pairs.map (fun p => p.2)).Nodup)
    (hN : mx + 1 ≤ pairs.length) :
    ∀ t ∈ List.scanl (pushStep extZero extZero) (LRU.new mx) pairs,
      t.num_items ≤ mx := by
  intro t ht
  have h := scanl_pushes_good pairs (LRU.new mx) (GoodC1_new mx)
    (by intro p hp hmem; simp [LRU.new] at hmem)
    (by intro p hp hmem; simp [LRU.new] at hmem)
    hknd hvnd t ht
  have hle := h.1.2.2.2.2
  rw [h.2] at hle
  exact hle

/-- Witness for C1: capacity 1, pushes (1,10) then (2,20); the final state
(after the second push evicted key 1) has item count 1 ≤ 1. -/
theorem capacity_bound_no_external_pinning_witness :
    (⟨[(2, 20)], [(2, 20, 1)], 1, 1⟩ : LRU).num_items ≤ 1 :=
  capacity_bound_no_external_pinning 1 [(1, 10), (2, 20)]
    (by decide) (by decide) (by decide)
    ⟨[(2, 20)], [(2, 20, 1)], 1, 1⟩ (by decide)
